import Mathlib

/-!
Verification development for the pg-ldap-sync repository.

The Go sources embedded here:
* `internal/ldap/client.go` — recursive LDAP group expansion
  (`FetchGroupMembers`, `fetchMembersRecursive`, `findGroupDN`, `getObject`);
* `internal/postgres/client.go` — the three reconciliation phases
  (`EnsureUsersExist`, `SyncRoleMembership`, `DeprovisionUsers`);
* `cmd/sync/main.go` — the per-database orchestration loop.

Mutable Go maps (`map[string]bool`) are modelled as lists with guarded
insertion; membership in such a map is list membership.  SQL queries built
with `rolname LIKE $n` (argument `prefix + "%"`) are modelled with an
executable implementation of PostgreSQL `LIKE` semantics (`_` matches any
single character, `%` any sequence, backslash escapes the next character).
-/

namespace PgLdapSync

/-! ### PostgreSQL LIKE pattern matching

`likeGo` is a fuel-indexed, structurally recursive matcher; every recursive
call strictly decreases `pat.length + s.length`, so fuel
`pat.length + s.length + 1` is always sufficient (`likeGo_adequate`).
`likeMatchL` instantiates the fuel with that bound, giving a total, kernel-
computable function satisfying the obvious unfolding equations below. -/

def likeGo : Nat → List Char → List Char → Bool
  | 0, _, _ => false
  | _ + 1, [], s => s.isEmpty
  | fuel + 1, p :: ps, [] => if p = '%' then likeGo fuel ps [] else false
  | fuel + 1, p :: ps, c :: s2 =>
    if p = '%' then
      likeGo fuel ps (c :: s2) || likeGo fuel (p :: ps) s2
    else if p = '_' then
      likeGo fuel ps s2
    else if p = '\\' then
      (!ps.isEmpty && ps.headI = c) && likeGo fuel ps.tail s2
    else
      p = c && likeGo fuel ps s2

/-- Total LIKE matcher over character lists. -/
def likeMatchL (pat s : List Char) : Bool :=
  likeGo (pat.length + s.length + 1) pat s

theorem likeGo_adequate :
    ∀ fuel1 fuel2 pat s, pat.length + s.length < fuel1 →
      pat.length + s.length < fuel2 →
      likeGo fuel1 pat s = likeGo fuel2 pat s := by
  intro fuel1
  induction fuel1 with
  | zero => intro fuel2 pat s h1 _; omega
  | succ n ih =>
    intro fuel2 pat s h1 h2
    obtain ⟨m, rfl⟩ : ∃ m, fuel2 = m + 1 := ⟨fuel2 - 1, by omega⟩
    cases pat with
    | nil => rfl
    | cons p ps =>
      cases s with
      | nil =>
        simp only [List.length_cons, List.length_nil] at h1 h2
        simp only [likeGo]
        split_ifs with hp
        · exact ih m ps [] (by simp only [List.length_nil]; omega)
            (by simp only [List.length_nil]; omega)
        · rfl
      | cons c s2 =>
        simp only [List.length_cons] at h1 h2
        simp only [likeGo]
        split_ifs with hp hu hb
        · rw [ih m ps (c :: s2) (by simp only [List.length_cons]; omega)
              (by simp only [List.length_cons]; omega),
            ih m (p :: ps) s2 (by simp only [List.length_cons]; omega)
              (by simp only [List.length_cons]; omega)]
        · rw [ih m ps s2 (by omega) (by omega)]
        · rw [ih m ps.tail s2 (by have := List.length_tail ps; omega)
              (by have := List.length_tail ps; omega)]
        · rw [ih m ps s2 (by omega) (by omega)]

theorem likeGo_eq_likeMatchL (fuel : Nat) (pat s : List Char)
    (h : pat.length + s.length < fuel) :
    likeGo fuel pat s = likeMatchL pat s :=
  likeGo_adequate fuel (pat.length + s.length + 1) pat s h (by omega)

theorem likeMatchL_unfold (pat s : List Char) :
    likeMatchL pat s = likeGo (pat.length + s.length + 1) pat s := rfl

theorem likeMatchL_nil (s : List Char) : likeMatchL [] s = s.isEmpty := by
  cases s <;> rfl

theorem likeMatchL_cons_nil (p : Char) (ps : List Char) :
    likeMatchL (p :: ps) [] = (if p = '%' then likeMatchL ps [] else false) := by
  conv_lhs => rw [likeMatchL_unfold]
  simp only [List.length_cons, List.length_nil, likeGo]
  rw [likeGo_eq_likeMatchL (ps.length + 1 + 0) ps []
    (by simp only [List.length_nil]; omega)]

theorem likeMatchL_cons_cons (p : Char) (ps : List Char) (c : Char) (s2 : List Char) :
    likeMatchL (p :: ps) (c :: s2) =
      (if p = '%' then likeMatchL ps (c :: s2) || likeMatchL (p :: ps) s2
       else if p = '_' then likeMatchL ps s2
       else if p = '\\' then (!ps.isEmpty && ps.headI = c) && likeMatchL ps.tail s2
       else p = c && likeMatchL ps s2) := by
  conv_lhs => rw [likeMatchL_unfold]
  simp only [List.length_cons, likeGo]
  rw [likeGo_eq_likeMatchL (ps.length + 1 + (s2.length + 1)) ps (c :: s2)
      (by simp only [List.length_cons]; omega),
    likeGo_eq_likeMatchL (ps.length + 1 + (s2.length + 1)) (p :: ps) s2
      (by simp only [List.length_cons]; omega),
    likeGo_eq_likeMatchL (ps.length + 1 + (s2.length + 1)) ps s2 (by omega),
    likeGo_eq_likeMatchL (ps.length + 1 + (s2.length + 1)) ps.tail s2
      (by have := List.length_tail ps; omega)]

theorem likeMatchL_percent_nil (ps : List Char) :
    likeMatchL ('%' :: ps) [] = likeMatchL ps [] := by
  rw [likeMatchL_cons_nil, if_pos rfl]

theorem likeMatchL_percent_cons (ps : List Char) (c : Char) (s2 : List Char) :
    likeMatchL ('%' :: ps) (c :: s2) =
      (likeMatchL ps (c :: s2) || likeMatchL ('%' :: ps) s2) := by
  rw [likeMatchL_cons_cons, if_pos rfl]

theorem likeMatchL_underscore (ps : List Char) (c : Char) (s2 : List Char) :
    likeMatchL ('_' :: ps) (c :: s2) = likeMatchL ps s2 := by
  rw [likeMatchL_cons_cons, if_neg (by decide : ¬('_' : Char) = '%'), if_pos rfl]

theorem likeMatchL_plain (p : Char) (ps : List Char) (c : Char) (s2 : List Char)
    (hp : p ≠ '%') (hu : p ≠ '_') (hb : p ≠ '\\') :
    likeMatchL (p :: ps) (c :: s2) = (p = c && likeMatchL ps s2) := by
  rw [likeMatchL_cons_cons, if_neg hp, if_neg hu, if_neg hb]

/-- A bare `%` pattern matches every string. -/
theorem likeMatchL_percent_matches_all (s : List Char) :
    likeMatchL ['%'] s = true := by
  induction s with
  | nil => rfl
  | cons c s2 ih =>
    rw [likeMatchL_percent_cons]
    simp only [ih, Bool.or_true]

/-- Prepending a `%` wildcard can only make the pattern more permissive. -/
theorem likeMatchL_percent_cons_of (ps s : List Char)
    (h : likeMatchL ps s = true) : likeMatchL ('%' :: ps) s = true := by
  cases s with
  | nil => rw [likeMatchL_percent_nil]; exact h
  | cons c s2 => rw [likeMatchL_percent_cons, h]; simp

/-- A backslash-free literal character-list `pc` followed by `%` LIKE-matches
every string having `pc` as a literal prefix. -/
theorem likeMatchL_of_literal_charlist (pc : List Char) (rest : List Char)
    (h : '\\' ∉ pc) :
    likeMatchL (pc ++ ['%']) (pc ++ rest) = true := by
  induction pc with
  | nil => simpa using likeMatchL_percent_matches_all rest
  | cons c pc2 ih =>
    have hc : c ≠ '\\' := fun hc => h (hc ▸ List.mem_cons_self c pc2)
    have hpc2 : '\\' ∉ pc2 := fun hm => h (List.mem_cons_of_mem c hm)
    by_cases hp : c = '%'
    · subst hp
      simp only [List.cons_append]
      rw [likeMatchL_percent_cons]
      have : likeMatchL ('%' :: (pc2 ++ ['%'])) (pc2 ++ rest) = true :=
        likeMatchL_percent_cons_of _ _ (ih hpc2)
      simp only [this, Bool.or_true]
    · by_cases hu : c = '_'
      · subst hu
        simp only [List.cons_append]
        rw [likeMatchL_underscore]
        exact ih hpc2
      · simp only [List.cons_append]
        rw [likeMatchL_plain c _ c _ hp hu hc]
        simp [ih hpc2]


/-! ### Directory model and recursive group expansion
(`internal/ldap/client.go`)

An `Entry` is an LDAP entry as seen by the Go client: its DN, its `cn`,
its `objectClass` values, its `member` attribute values, and the value of
the configured user-identifying attribute (`config.UserObjectClass` in the
Go source; the empty string models an absent attribute, exactly what
`GetAttributeValue` returns then).  A `Dir` is the directory state: the
entries, the set of DNs whose base-object search fails
(`conn.Search` returning an error), and whether the subtree search used by
`findGroupDN` fails. -/

structure Entry where
  dn : String
  cn : String
  objectClasses : List String
  memberDNs : List String
  uidAttr : String
deriving DecidableEq

structure Dir where
  entries : List Entry
  failingDNs : List String
  baseSearchFails : Bool
deriving DecidableEq

inductive LookupResult where
  | found (e : Entry)
  | missing
  | searchError
deriving DecidableEq

/-- `getObject` models the base-object search for one DN (client.go:218-237):
a connection/search failure, no entry, or the first returned entry. -/
def getObject (d : Dir) (dn : String) : LookupResult :=
  if d.failingDNs.contains dn then .searchError
  else
    match d.entries.find? (fun e => e.dn == dn) with
    | some e => .found e
    | none => .missing

/-- `strings.EqualFold` (ASCII-level model: compare after per-character
lower-casing). -/
def eqFold (a b : String) : Bool :=
  a.data.map Char.toLower == b.data.map Char.toLower

/-- The per-member group test of client.go:158-166. -/
def isGroupEntry (e : Entry) : Bool :=
  e.objectClasses.any (fun oc => eqFold oc "group" || eqFold oc "groupOfNames")

/-- The mutable state of one expansion: the `userIDs` map and the
`processedGroups` map of client.go, as lists with guarded insertion. -/
abbrev FetchSt := List String × List String

/-- The body of the member loop of `fetchMembersRecursive`
(client.go:147-188) for a single member DN.  `recFn` is the recursive call
on nested groups; its error, like in the Go source, is logged and
discarded (client.go:172-174) while its state mutations are kept.  A
member whose entry cannot be retrieved, or which is not a group and has no
identifying attribute, is skipped with a warning (client.go:152-156,
179-182). -/
def processOneMember (d : Dir) (recFn : String → FetchSt → FetchSt × Bool)
    (mdn : String) (st : FetchSt) : FetchSt :=
  if mdn = "" then st
  else
    match getObject d mdn with
    | .searchError => st
    | .missing => st
    | .found me =>
      if isGroupEntry me then (recFn mdn st).1
      else if me.uidAttr = "" then st
      else if st.1.contains me.uidAttr then st
      else (me.uidAttr :: st.1, st.2)

/-- The member loop of `fetchMembersRecursive` (client.go:147-188). -/
def processMembers (d : Dir) (recFn : String → FetchSt → FetchSt × Bool) :
    List String → FetchSt → FetchSt
  | [], st => st
  | mdn :: rest, st => processMembers d recFn rest (processOneMember d recFn mdn st)

/-- `fetchMembersRecursive` (client.go:114-190).  The Go function recurses
without an explicit bound; here the recursion depth is indexed by fuel,
and `fetchRec_fuel_adequate` below proves that any fuel of at least
`fetchFuel d` yields the same result, i.e. the unbounded recursion
terminates.  The returned Bool is `true` iff the function returns an
error, which happens only when the search for `groupDN` itself fails
(client.go:133-139); fuel exhaustion also reports `true` but is
unreachable at adequate fuel. -/
def fetchMembersRecursive (d : Dir) : Nat → String → FetchSt → FetchSt × Bool
  | 0, _, st => (st, true)
  | fuel + 1, groupDN, st =>
    if st.2.contains groupDN then (st, false)
    else
      match getObject d groupDN with
      | .searchError => ((st.1, groupDN :: st.2), true)
      | .missing => ((st.1, groupDN :: st.2), true)
      | .found e =>
        (processMembers d (fetchMembersRecursive d fuel) e.memberDNs
          (st.1, groupDN :: st.2), false)

/-- Sufficient fuel for a full expansion over `d` (proved adequate below). -/
def fetchFuel (d : Dir) : Nat := d.entries.length + 2

inductive FetchError where
  | notFound
  | ambiguousMatch
  | directoryError
deriving DecidableEq

/-- `findGroupDN` (client.go:193-215): subtree search for
`(&(objectClass=<groupObjectClass>)(cn=<groupCN>))`; zero matches is
NotFound, several matches is AmbiguousMatch, a search failure is a
directory error. -/
def findGroupDN (d : Dir) (groupObjectClass groupCN : String) :
    Except FetchError String :=
  if d.baseSearchFails then .error .directoryError
  else
    match d.entries.filter
        (fun e => e.objectClasses.contains groupObjectClass && e.cn == groupCN) with
    | [] => .error .notFound
    | [e] => .ok e.dn
    | _ => .error .ambiguousMatch

/-- `FetchGroupMembers` (client.go:84-111): resolve the group CN to a DN,
expand recursively, and return the accumulated unique user ids. -/
def FetchGroupMembers (d : Dir) (groupObjectClass groupCN : String) :
    Except FetchError (List String) :=
  match findGroupDN d groupObjectClass groupCN with
  | .error e => .error e
  | .ok groupDN =>
    match fetchMembersRecursive d (fetchFuel d) groupDN ([], []) with
    | (_, true) => .error .directoryError
    | ((uids, _), false) => .ok uids


/-! ### Termination and uniqueness of the recursive expansion

The Go recursion is unbounded; it terminates because `processedGroups`
only grows and every productive call inserts a new DN.  Formally:
`fetchMembersRecursive` at any fuel of at least `fetchFuel d` computes the
same result (`fetchRec_fuel_adequate`), the processed set never receives
a duplicate (`fetchRec_nodup`), and an already-processed group returns
immediately (`fetchRec_skip_visited`). -/

theorem eq_false_ne_true {b : Bool} (h : b = false) : ¬ b = true := by
  rw [h]
  simp

theorem processOneMember_empty_dn (d : Dir) (r : String → FetchSt → FetchSt × Bool)
    (st : FetchSt) : processOneMember d r "" st = st := by
  unfold processOneMember
  rw [if_pos rfl]

theorem processOneMember_searchError (d : Dir)
    (r : String → FetchSt → FetchSt × Bool) (mdn : String) (st : FetchSt)
    (h1 : mdn ≠ "") (h : getObject d mdn = .searchError) :
    processOneMember d r mdn st = st := by
  unfold processOneMember
  rw [if_neg h1, h]

theorem processOneMember_missing (d : Dir)
    (r : String → FetchSt → FetchSt × Bool) (mdn : String) (st : FetchSt)
    (h1 : mdn ≠ "") (h : getObject d mdn = .missing) :
    processOneMember d r mdn st = st := by
  unfold processOneMember
  rw [if_neg h1, h]

theorem processOneMember_found (d : Dir)
    (r : String → FetchSt → FetchSt × Bool) (mdn : String) (st : FetchSt)
    (me : Entry) (h1 : mdn ≠ "") (h : getObject d mdn = .found me) :
    processOneMember d r mdn st =
      (if isGroupEntry me then (r mdn st).1
       else if me.uidAttr = "" then st
       else if st.1.contains me.uidAttr then st
       else (me.uidAttr :: st.1, st.2)) := by
  unfold processOneMember
  rw [if_neg h1, h]

theorem fetchRec_zero (d : Dir) (dn : String) (st : FetchSt) :
    fetchMembersRecursive d 0 dn st = (st, true) := rfl

theorem fetchRec_skip_visited (d : Dir) (n : Nat) (dn : String) (st : FetchSt)
    (hc : st.2.contains dn = true) :
    fetchMembersRecursive d (n + 1) dn st = (st, false) := by
  simp only [fetchMembersRecursive]
  rw [if_pos hc]

theorem fetchRec_succ_searchError (d : Dir) (n : Nat) (dn : String) (st : FetchSt)
    (hc : st.2.contains dn = false) (h : getObject d dn = .searchError) :
    fetchMembersRecursive d (n + 1) dn st = ((st.1, dn :: st.2), true) := by
  simp only [fetchMembersRecursive]
  rw [if_neg (eq_false_ne_true hc), h]

theorem fetchRec_succ_missing (d : Dir) (n : Nat) (dn : String) (st : FetchSt)
    (hc : st.2.contains dn = false) (h : getObject d dn = .missing) :
    fetchMembersRecursive d (n + 1) dn st = ((st.1, dn :: st.2), true) := by
  simp only [fetchMembersRecursive]
  rw [if_neg (eq_false_ne_true hc), h]

theorem fetchRec_succ_found (d : Dir) (n : Nat) (dn : String) (st : FetchSt)
    (e : Entry) (hc : st.2.contains dn = false) (h : getObject d dn = .found e) :
    fetchMembersRecursive d (n + 1) dn st =
      (processMembers d (fetchMembersRecursive d n) e.memberDNs
        (st.1, dn :: st.2), false) := by
  simp only [fetchMembersRecursive]
  rw [if_neg (eq_false_ne_true hc), h]

/-- All DNs present in the directory, deduplicated. -/
def dirDNs (d : Dir) : List String := (d.entries.map (fun e => e.dn)).dedup

/-- Number of directory DNs not yet in the processed set. -/
def unvisited (d : Dir) (proc : List String) : Nat :=
  ((dirDNs d).filter (fun x => !proc.contains x)).length

theorem contains_true_iff_mem {α : Type} [BEq α] [LawfulBEq α]
    (l : List α) (a : α) : l.contains a = true ↔ a ∈ l := List.elem_iff

theorem length_filter_le_of_imp {α : Type} (l : List α) (p q : α → Bool)
    (h : ∀ x, q x = true → p x = true) :
    (l.filter q).length ≤ (l.filter p).length := by
  induction l with
  | nil => simp
  | cons a t ih =>
    by_cases hq : q a = true
    · rw [List.filter_cons_of_pos hq, List.filter_cons_of_pos (h a hq)]
      simpa using ih
    · rw [List.filter_cons_of_neg (by simpa using hq)]
      by_cases hp : p a = true
      · rw [List.filter_cons_of_pos hp]
        exact Nat.le_trans ih (by simp)
      · rw [List.filter_cons_of_neg (by simpa using hp)]
        exact ih

theorem length_filter_lt_of_mem {α : Type} (l : List α) (p : α → Bool) (a : α)
    (ha : a ∈ l) (hpa : p a = false) :
    (l.filter p).length < l.length := by
  induction l with
  | nil => cases ha
  | cons b t ih =>
    rcases List.mem_cons.mp ha with rfl | hmem
    · rw [List.filter_cons_of_neg (by simp [hpa])]
      exact Nat.lt_succ_of_le (List.length_filter_le p t)
    · by_cases hb : p b = true
      · rw [List.filter_cons_of_pos hb]
        simpa using ih hmem
      · rw [List.filter_cons_of_neg (by simpa using hb)]
        exact Nat.lt_succ_of_lt (ih hmem)

theorem getObject_found_mem {d : Dir} {dn : String} {e : Entry}
    (h : getObject d dn = .found e) : dn ∈ dirDNs d := by
  unfold getObject at h
  by_cases hf : d.failingDNs.contains dn = true
  · rw [if_pos hf] at h; cases h
  · rw [if_neg hf] at h
    cases hfind : d.entries.find? (fun e2 => e2.dn == dn) with
    | none => rw [hfind] at h; cases h
    | some e2 =>
      have hmem := List.mem_of_find?_eq_some hfind
      have hdn : e2.dn = dn := by simpa using List.find?_some hfind
      rw [← hdn]
      exact List.mem_dedup.mpr (List.mem_map_of_mem _ hmem)

theorem unvisited_le_of_imp (d : Dir) (proc1 proc2 : List String)
    (h : ∀ x, proc1.contains x = true → proc2.contains x = true) :
    unvisited d proc2 ≤ unvisited d proc1 := by
  apply length_filter_le_of_imp
  intro x hx
  cases hc : proc1.contains x
  · rfl
  · rw [h x hc] at hx
    cases hx

theorem unvisited_append_le (d : Dir) (proc ext : List String) :
    unvisited d (ext ++ proc) ≤ unvisited d proc := by
  apply unvisited_le_of_imp
  intro x hx
  rw [contains_true_iff_mem] at hx ⊢
  exact List.mem_append_right ext hx

theorem unvisited_cons_lt (d : Dir) (dn : String) (proc : List String)
    (hmem : dn ∈ dirDNs d) (hnot : proc.contains dn = false) :
    unvisited d (dn :: proc) < unvisited d proc := by
  unfold unvisited
  have hf : ((dirDNs d).filter (fun x => !(dn :: proc).contains x))
      = ((dirDNs d).filter (fun x => !proc.contains x)).filter
          (fun x => !decide (x = dn)) := by
    rw [List.filter_filter]
    apply List.filter_congr
    intro x _
    simp [List.contains_cons, Bool.not_or, Bool.and_comm]
  rw [hf]
  apply length_filter_lt_of_mem _ _ dn
  · refine List.mem_filter.mpr ⟨hmem, ?_⟩
    show (!proc.contains dn) = true
    rw [hnot]
    rfl
  · show (!decide (dn = dn)) = false
    simp

/-- Precondition under which `fetchMembersRecursive` has enough fuel. -/
def PreRec (d : Dir) (fuel : Nat) (dn : String) (proc : List String) : Prop :=
  if proc.contains dn then 1 ≤ fuel else unvisited d (dn :: proc) + 2 ≤ fuel

/-- Precondition under which `processMembers` has enough fuel for the
recursive calls it spawns. -/
def PreMem (d : Dir) (fuel : Nat) (proc : List String) : Prop :=
  unvisited d proc + 1 ≤ fuel

theorem processOneMember_mono (d : Dir) (r : String → FetchSt → FetchSt × Bool)
    (hrec : ∀ dn st, ∃ a b, (r dn st).1 = (a ++ st.1, b ++ st.2))
    (mdn : String) (st : FetchSt) :
    ∃ a b, processOneMember d r mdn st = (a ++ st.1, b ++ st.2) := by
  by_cases h1 : mdn = ""
  · subst h1
    exact ⟨[], [], by rw [processOneMember_empty_dn]; rfl⟩
  · cases hobj : getObject d mdn with
    | searchError => exact ⟨[], [], by rw [processOneMember_searchError d r mdn st h1 hobj]; rfl⟩
    | missing => exact ⟨[], [], by rw [processOneMember_missing d r mdn st h1 hobj]; rfl⟩
    | found me =>
      rw [processOneMember_found d r mdn st me h1 hobj]
      by_cases hg : isGroupEntry me = true
      · rw [if_pos hg]
        exact hrec mdn st
      · rw [if_neg hg]
        by_cases hu : me.uidAttr = ""
        · exact ⟨[], [], by rw [if_pos hu]; rfl⟩
        · rw [if_neg hu]
          by_cases hcn : st.1.contains me.uidAttr = true
          · exact ⟨[], [], by rw [if_pos hcn]; rfl⟩
          · exact ⟨[me.uidAttr], [], by rw [if_neg hcn]; rfl⟩

theorem processMembers_mono (d : Dir) (r : String → FetchSt → FetchSt × Bool)
    (hrec : ∀ dn st, ∃ a b, (r dn st).1 = (a ++ st.1, b ++ st.2)) :
    ∀ mdns st, ∃ a b, processMembers d r mdns st = (a ++ st.1, b ++ st.2) := by
  intro mdns
  induction mdns with
  | nil => intro st; exact ⟨[], [], rfl⟩
  | cons mdn rest ih =>
    intro st
    obtain ⟨a0, b0, h0⟩ := processOneMember_mono d r hrec mdn st
    obtain ⟨a1, b1, h1⟩ := ih (processOneMember d r mdn st)
    refine ⟨a1 ++ a0, b1 ++ b0, ?_⟩
    show processMembers d r rest (processOneMember d r mdn st) = _
    rw [h1, h0]
    simp [List.append_assoc]

theorem fetchRec_mono (d : Dir) :
    ∀ fuel dn st, ∃ a b,
      (fetchMembersRecursive d fuel dn st).1 = (a ++ st.1, b ++ st.2) := by
  intro fuel
  induction fuel with
  | zero => intro dn st; exact ⟨[], [], by rw [fetchRec_zero]; rfl⟩
  | succ n ih =>
    intro dn st
    by_cases hc : st.2.contains dn = true
    · exact ⟨[], [], by rw [fetchRec_skip_visited d n dn st hc]; rfl⟩
    · replace hc : st.2.contains dn = false := by
        cases h : st.2.contains dn
        · rfl
        · exact absurd h hc
      cases hobj : getObject d dn with
      | searchError =>
        exact ⟨[], [dn], by rw [fetchRec_succ_searchError d n dn st hc hobj]; rfl⟩
      | missing =>
        exact ⟨[], [dn], by rw [fetchRec_succ_missing d n dn st hc hobj]; rfl⟩
      | found e =>
        obtain ⟨a, b, h⟩ := processMembers_mono d _ ih e.memberDNs (st.1, dn :: st.2)
        refine ⟨a, b ++ [dn], ?_⟩
        rw [fetchRec_succ_found d n dn st e hc hobj]
        show processMembers d (fetchMembersRecursive d n) e.memberDNs
          (st.1, dn :: st.2) = _
        rw [h, ← List.append_cons]

theorem processMembers_congr (d : Dir)
    (r1 r2 : String → FetchSt → FetchSt × Bool) (P : List String → Prop)
    (hmono : ∀ dn st, ∃ a b, (r1 dn st).1 = (a ++ st.1, b ++ st.2))
    (hP : ∀ proc ext, P proc → P (ext ++ proc))
    (heq : ∀ dn st e, P st.2 → getObject d dn = .found e → r1 dn st = r2 dn st) :
    ∀ mdns st, P st.2 → processMembers d r1 mdns st = processMembers d r2 mdns st := by
  intro mdns
  induction mdns with
  | nil => intro st _; rfl
  | cons mdn rest ih =>
    intro st hst
    have hone : processOneMember d r1 mdn st = processOneMember d r2 mdn st := by
      by_cases h1 : mdn = ""
      · subst h1
        rw [processOneMember_empty_dn, processOneMember_empty_dn]
      · cases hobj : getObject d mdn with
        | searchError =>
          rw [processOneMember_searchError d r1 mdn st h1 hobj,
            processOneMember_searchError d r2 mdn st h1 hobj]
        | missing =>
          rw [processOneMember_missing d r1 mdn st h1 hobj,
            processOneMember_missing d r2 mdn st h1 hobj]
        | found me =>
          rw [processOneMember_found d r1 mdn st me h1 hobj,
            processOneMember_found d r2 mdn st me h1 hobj,
            heq mdn st me hst hobj]
    show processMembers d r1 rest (processOneMember d r1 mdn st) = _
    rw [hone]
    apply ih
    obtain ⟨a, b, h⟩ := processOneMember_mono d r1 hmono mdn st
    rw [hone] at h
    rw [h]
    exact hP st.2 b hst

theorem fetchRec_congr_fuel (d : Dir) :
    ∀ fuel1 fuel2 dn st, PreRec d fuel1 dn st.2 → PreRec d fuel2 dn st.2 →
      fetchMembersRecursive d fuel1 dn st = fetchMembersRecursive d fuel2 dn st := by
  intro fuel1
  induction fuel1 with
  | zero =>
    intro fuel2 dn st h1 _
    exfalso
    unfold PreRec at h1
    split at h1 <;> omega
  | succ n ih =>
    intro fuel2 dn st h1 h2
    obtain ⟨m, rfl⟩ : ∃ m, fuel2 = m + 1 := by
      refine ⟨fuel2 - 1, ?_⟩
      unfold PreRec at h2
      split at h2 <;> omega
    by_cases hc : st.2.contains dn = true
    · rw [fetchRec_skip_visited d n dn st hc, fetchRec_skip_visited d m dn st hc]
    · replace hc : st.2.contains dn = false := by
        cases h : st.2.contains dn
        · rfl
        · exact absurd h hc
      cases hobj : getObject d dn with
      | searchError =>
        rw [fetchRec_succ_searchError d n dn st hc hobj,
          fetchRec_succ_searchError d m dn st hc hobj]
      | missing =>
        rw [fetchRec_succ_missing d n dn st hc hobj,
          fetchRec_succ_missing d m dn st hc hobj]
      | found e =>
        rw [fetchRec_succ_found d n dn st e hc hobj,
          fetchRec_succ_found d m dn st e hc hobj]
        have hpre1 : PreMem d n (dn :: st.2) := by
          unfold PreRec at h1
          rw [if_neg (eq_false_ne_true hc)] at h1
          unfold PreMem
          omega
        have hpre2 : PreMem d m (dn :: st.2) := by
          unfold PreRec at h2
          rw [if_neg (eq_false_ne_true hc)] at h2
          unfold PreMem
          omega
        have hcongr := processMembers_congr d
          (fetchMembersRecursive d n) (fetchMembersRecursive d m)
          (fun proc => PreMem d n proc ∧ PreMem d m proc)
          (fetchRec_mono d n)
          (fun proc ext hp => ⟨by
              have h4 := hp.1
              unfold PreMem at h4 ⊢
              have := unvisited_append_le d proc ext
              omega,
            by
              have h4 := hp.2
              unfold PreMem at h4 ⊢
              have := unvisited_append_le d proc ext
              omega⟩)
          (fun dn2 st2 e2 hp hobj2 => by
            have hp1 := hp.1
            have hp2 := hp.2
            unfold PreMem at hp1 hp2
            apply ih m dn2 st2
            · unfold PreRec
              by_cases hc2 : st2.2.contains dn2 = true
              · rw [if_pos hc2]
                omega
              · replace hc2 : st2.2.contains dn2 = false := by
                  cases h : st2.2.contains dn2
                  · rfl
                  · exact absurd h hc2
                rw [if_neg (eq_false_ne_true hc2)]
                have hlt := unvisited_cons_lt d dn2 st2.2
                  (getObject_found_mem hobj2) hc2
                omega
            · unfold PreRec
              by_cases hc2 : st2.2.contains dn2 = true
              · rw [if_pos hc2]
                omega
              · replace hc2 : st2.2.contains dn2 = false := by
                  cases h : st2.2.contains dn2
                  · rfl
                  · exact absurd h hc2
                rw [if_neg (eq_false_ne_true hc2)]
                have hlt := unvisited_cons_lt d dn2 st2.2
                  (getObject_found_mem hobj2) hc2
                omega)
          e.memberDNs (st.1, dn :: st.2) ⟨hpre1, hpre2⟩
        rw [hcongr]

theorem PreRec_of_le (d : Dir) (fuel : Nat) (dn : String) (proc : List String)
    (h : fetchFuel d ≤ fuel) : PreRec d fuel dn proc := by
  unfold PreRec
  have h1 : unvisited d (dn :: proc) ≤ (dirDNs d).length :=
    List.length_filter_le _ _
  have h2 : (dirDNs d).length ≤ d.entries.length := by
    have := (List.dedup_sublist (d.entries.map (fun e => e.dn))).length_le
    simpa using this
  unfold fetchFuel at h
  split <;> omega

/-- Any fuel of at least `fetchFuel d` computes the same expansion: the
unbounded Go recursion has a well-defined terminating value. -/
theorem fetchRec_fuel_adequate (d : Dir) (fuel : Nat) (dn : String) (st : FetchSt)
    (h : fetchFuel d ≤ fuel) :
    fetchMembersRecursive d fuel dn st = fetchMembersRecursive d (fetchFuel d) dn st :=
  fetchRec_congr_fuel d fuel (fetchFuel d) dn st
    (PreRec_of_le d fuel dn st.2 h)
    (PreRec_of_le d (fetchFuel d) dn st.2 (Nat.le_refl _))

/-! ### No-duplicates invariants: each principal and each processed group
is recorded at most once. -/

theorem processOneMember_nodup (d : Dir) (r : String → FetchSt → FetchSt × Bool)
    (hr : ∀ dn st, st.1.Nodup → st.2.Nodup →
      ((r dn st).1.1.Nodup ∧ (r dn st).1.2.Nodup))
    (mdn : String) (st : FetchSt) (h1 : st.1.Nodup) (h2 : st.2.Nodup) :
    (processOneMember d r mdn st).1.Nodup ∧ (processOneMember d r mdn st).2.Nodup := by
  by_cases he : mdn = ""
  · subst he
    rw [processOneMember_empty_dn]
    exact ⟨h1, h2⟩
  · cases hobj : getObject d mdn with
    | searchError =>
      rw [processOneMember_searchError d r mdn st he hobj]
      exact ⟨h1, h2⟩
    | missing =>
      rw [processOneMember_missing d r mdn st he hobj]
      exact ⟨h1, h2⟩
    | found me =>
      rw [processOneMember_found d r mdn st me he hobj]
      by_cases hg : isGroupEntry me = true
      · rw [if_pos hg]
        exact hr mdn st h1 h2
      · rw [if_neg hg]
        by_cases hu : me.uidAttr = ""
        · rw [if_pos hu]
          exact ⟨h1, h2⟩
        · rw [if_neg hu]
          by_cases hcn : st.1.contains me.uidAttr = true
          · rw [if_pos hcn]
            exact ⟨h1, h2⟩
          · rw [if_neg hcn]
            refine ⟨List.nodup_cons.mpr ⟨?_, h1⟩, h2⟩
            intro hmem
            exact hcn ((contains_true_iff_mem st.1 me.uidAttr).mpr hmem)

theorem processMembers_nodup (d : Dir) (r : String → FetchSt → FetchSt × Bool)
    (hr : ∀ dn st, st.1.Nodup → st.2.Nodup →
      ((r dn st).1.1.Nodup ∧ (r dn st).1.2.Nodup)) :
    ∀ mdns st, st.1.Nodup → st.2.Nodup →
      (processMembers d r mdns st).1.Nodup ∧ (processMembers d r mdns st).2.Nodup := by
  intro mdns
  induction mdns with
  | nil => intro st h1 h2; exact ⟨h1, h2⟩
  | cons mdn rest ih =>
    intro st h1 h2
    have hone := processOneMember_nodup d r hr mdn st h1 h2
    exact ih (processOneMember d r mdn st) hone.1 hone.2

theorem fetchRec_nodup (d : Dir) :
    ∀ fuel dn st, st.1.Nodup → st.2.Nodup →
      ((fetchMembersRecursive d fuel dn st).1.1.Nodup ∧
        (fetchMembersRecursive d fuel dn st).1.2.Nodup) := by
  intro fuel
  induction fuel with
  | zero =>
    intro dn st h1 h2
    rw [fetchRec_zero]
    exact ⟨h1, h2⟩
  | succ n ih =>
    intro dn st h1 h2
    by_cases hc : st.2.contains dn = true
    · rw [fetchRec_skip_visited d n dn st hc]
      exact ⟨h1, h2⟩
    · replace hc : st.2.contains dn = false := by
        cases h : st.2.contains dn
        · rfl
        · exact absurd h hc
      have hnm : dn ∉ st.2 := fun hmem =>
        (eq_false_ne_true hc) ((contains_true_iff_mem st.2 dn).mpr hmem)
      cases hobj : getObject d dn with
      | searchError =>
        rw [fetchRec_succ_searchError d n dn st hc hobj]
        exact ⟨h1, List.nodup_cons.mpr ⟨hnm, h2⟩⟩
      | missing =>
        rw [fetchRec_succ_missing d n dn st hc hobj]
        exact ⟨h1, List.nodup_cons.mpr ⟨hnm, h2⟩⟩
      | found e =>
        rw [fetchRec_succ_found d n dn st e hc hobj]
        exact processMembers_nodup d _ ih e.memberDNs (st.1, dn :: st.2) h1
          (List.nodup_cons.mpr ⟨hnm, h2⟩)

theorem FetchGroupMembers_eq_error_find (d : Dir) (oc cn : String) (e : FetchError)
    (hf : findGroupDN d oc cn = .error e) :
    FetchGroupMembers d oc cn = .error e := by
  unfold FetchGroupMembers
  rw [hf]

theorem FetchGroupMembers_eq_ok (d : Dir) (oc cn dn : String)
    (uids proc : List String) (hf : findGroupDN d oc cn = .ok dn)
    (hr : fetchMembersRecursive d (fetchFuel d) dn ([], []) = ((uids, proc), false)) :
    FetchGroupMembers d oc cn = .ok uids := by
  unfold FetchGroupMembers
  rw [hf]
  show (match fetchMembersRecursive d (fetchFuel d) dn ([], []) with
        | (_, true) => Except.error FetchError.directoryError
        | ((uids, _), false) => Except.ok uids) = Except.ok uids
  rw [hr]

theorem FetchGroupMembers_eq_error_rec (d : Dir) (oc cn dn : String)
    (uids proc : List String) (hf : findGroupDN d oc cn = .ok dn)
    (hr : fetchMembersRecursive d (fetchFuel d) dn ([], []) = ((uids, proc), true)) :
    FetchGroupMembers d oc cn = .error .directoryError := by
  unfold FetchGroupMembers
  rw [hf]
  show (match fetchMembersRecursive d (fetchFuel d) dn ([], []) with
        | (_, true) => Except.error FetchError.directoryError
        | ((uids, _), false) => Except.ok uids) = Except.error FetchError.directoryError
  rw [hr]

/-- A successful `FetchGroupMembers` returns a duplicate-free user list. -/
theorem FetchGroupMembers_ok_nodup (d : Dir) (oc cn : String) (l : List String)
    (h : FetchGroupMembers d oc cn = .ok l) : l.Nodup := by
  cases hf : findGroupDN d oc cn with
  | error e =>
    rw [FetchGroupMembers_eq_error_find d oc cn e hf] at h
    cases h
  | ok groupDN =>
    have hres := fetchRec_nodup d (fetchFuel d) groupDN ([], [])
      List.nodup_nil List.nodup_nil
    rcases hfr : fetchMembersRecursive d (fetchFuel d) groupDN ([], [])
      with ⟨⟨uids, proc⟩, err⟩
    rw [hfr] at hres
    cases err
    · rw [FetchGroupMembers_eq_ok d oc cn groupDN uids proc hf hfr] at h
      injection h with hl
      rw [← hl]
      exact hres.1
    · rw [FetchGroupMembers_eq_error_rec d oc cn groupDN uids proc hf hfr] at h
      cases h

/-! ### Catalog model and the three reconciliation phases
(`internal/postgres/client.go`)

The catalog state the engine reads and mutates: the set of role names
(`pg_roles`) and the role-membership edges (`pg_auth_members`, as
(group role, member role) pairs).  Each phase is modelled as the list of
catalog mutations (`PgOp`) it issues, together with the catalog state
after applying them where later reads depend on it. -/

inductive PgOp where
  | createRole (name : String)
  | grant (role member : String)
  | revoke (role member : String)
  | dropRole (name : String)
deriving DecidableEq

structure Catalog where
  roles : List String
  members : List (String × String)
deriving DecidableEq

/-- `strings.HasPrefix(s, pre)` — byte-for-byte literal prefix test. -/
def hasPrefixGo (s pre : String) : Bool := pre.data.isPrefixOf s.data

/-- The LIKE-prefix disjunction of the WHERE clause built in
client.go:340-344 and 433-437: `u` matches pattern `p` followed by the
percent wildcard, for at least one configured prefix `p`. -/
def likeAny (prefixes : List String) (u : String) : Bool :=
  prefixes.any (fun p => likeMatchL (p.data ++ ['%']) u.data)

/-- The managed-member query of client.go:345-359 and 439-455: members of
`role` whose rolname LIKE-matches some prefix pattern. -/
def managedMembers (cat : Catalog) (role : String) (prefixes : List String) :
    List String :=
  (cat.members.filter (fun gm => gm.1 == role && likeAny prefixes gm.2)).map
    (fun gm => gm.2)

/-- One iteration of the `EnsureUsersExist` loop (client.go:301-318): check
existence against the live transaction state, and if absent CREATE the
role and GRANT it the default group. -/
def ensureUsersExistStep (defaultGroup : String) (acc : List PgOp × Catalog)
    (user : String) : List PgOp × Catalog :=
  if acc.2.roles.contains user then acc
  else
    (acc.1 ++ [PgOp.createRole user, PgOp.grant defaultGroup user],
     { roles := acc.2.roles ++ [user],
       members := acc.2.members ++ [(defaultGroup, user)] })

/-- `EnsureUsersExist` (client.go:294-320), phase 1. -/
def EnsureUsersExist (cat : Catalog) (users : List String) (defaultGroup : String) :
    List PgOp × Catalog :=
  users.foldl (ensureUsersExistStep defaultGroup) ([], cat)

/-- Step 2 of `SyncRoleMembership` (client.go:361-385): the reconciliation
plan, computed from the desired members and the managed-member query. -/
def syncPlan (cat : Catalog) (pgRole : String) (ldapMembers prefixes : List String) :
    List String × List String :=
  let pgManagedMembers := managedMembers cat pgRole prefixes
  (ldapMembers.filter (fun u => !pgManagedMembers.contains u),
   pgManagedMembers.filter (fun u => !ldapMembers.contains u))

/-- Effect of `GRANT role TO user` on the membership catalog (idempotent). -/
def grantEdge (cat : Catalog) (role user : String) : Catalog :=
  if cat.members.contains (role, user) then cat
  else { cat with members := cat.members ++ [(role, user)] }

/-- Effect of `REVOKE role FROM user` on the membership catalog. -/
def revokeEdge (cat : Catalog) (role user : String) : Catalog :=
  { cat with members := cat.members.filter (fun gm => !(gm.1 == role && gm.2 == user)) }

/-- `SyncRoleMembership` (client.go:324-412), phase 2: with no configured
prefixes it returns immediately issuing nothing (client.go:325-328);
otherwise it grants `toGrant` then revokes `toRevoke`. -/
def SyncRoleMembership (cat : Catalog) (pgRole : String)
    (ldapMembers prefixes : List String) : List PgOp × Catalog :=
  if prefixes.isEmpty then ([], cat)
  else
    let plan := syncPlan cat pgRole ldapMembers prefixes
    (plan.1.map (fun u => PgOp.grant pgRole u) ++
       plan.2.map (fun u => PgOp.revoke pgRole u),
     plan.2.foldl (fun c u => revokeEdge c pgRole u)
       (plan.1.foldl (fun c u => grantEdge c pgRole u) cat))

/-- `DeprovisionUsers` (client.go:416-484), phase 3, as the list of DROP
operations it attempts: with no configured prefixes it returns immediately
(client.go:417-421); otherwise it drops every managed member of
`groupName` that is not in the valid LDAP user set.  (A single DROP may
fail server-side and is then only logged, client.go:475-480; the list
models the attempted drops.) -/
def DeprovisionUsers (cat : Catalog) (ldapUsers : List String)
    (groupName : String) (prefixes : List String) : List PgOp :=
  if prefixes.isEmpty then []
  else
    ((managedMembers cat groupName prefixes).filter
      (fun u => !ldapUsers.contains u)).map PgOp.dropRole

/-! ### The per-database orchestration loop (`cmd/sync/main.go`) -/

/-- One entry of `cfg.Databases[..].Roles` (internal/config). -/
structure RoleMap where
  PostgresRole : String
  LDAPGroupCN : String
deriving DecidableEq

/-- The prefix filter of main.go:60-73: keep members having at least one
configured prefix as a literal `strings.HasPrefix` prefix. -/
def filterValidMembers (prefixes members : List String) : List String :=
  members.filter (fun m => prefixes.any (fun p => hasPrefixGo m p))

/-- Insertion into the `allValidLdapUsers` set (a Go map keyed by user). -/
def insertUnique (l : List String) (x : String) : List String :=
  if l.contains x then l else l ++ [x]

/-- Assignment `allRoleMappings[role] = filteredMembers` — Go map update,
overwriting any earlier entry for the same role. -/
def mapInsert (m : List (String × List String)) (k : String) (v : List String) :
    List (String × List String) :=
  if m.any (fun kv => kv.1 == k) then
    m.map (fun kv => if kv.1 == k then (k, v) else kv)
  else m ++ [(k, v)]

def mapLookup (m : List (String × List String)) (k : String) :
    Option (List String) :=
  (m.find? (fun kv => kv.1 == k)).map (fun kv => kv.2)

/-- One iteration of the phase-1 gathering loop (main.go:53-75): fetch the
mapped group; on error log and continue — contributing no map entry and no
valid users; on success filter and record. -/
def gatherStep (d : Dir) (oc : String) (prefixes : List String)
    (acc : List String × List (String × List String)) (rm : RoleMap) :
    List String × List (String × List String) :=
  match FetchGroupMembers d oc rm.LDAPGroupCN with
  | .error _ => acc
  | .ok ldapMembers =>
    let filtered := filterValidMembers prefixes ldapMembers
    (filtered.foldl insertUnique acc.1, mapInsert acc.2 rm.PostgresRole filtered)

/-- The phase-1 gathering loop over all configured role mappings
(main.go:49-75), returning (allValidLdapUsers, allRoleMappings). -/
def gatherMappings (d : Dir) (oc : String) (prefixes : List String)
    (roles : List RoleMap) : List String × List (String × List String) :=
  roles.foldl (gatherStep d oc prefixes) ([], [])

/-- The phase-2 loop (main.go:97-107) when every transaction succeeds,
iterating the role map in some fixed order (Go map iteration order is
unspecified; the claims proved below do not depend on it). -/
def runPhase2 (cat : Catalog) (prefixes : List String) :
    List (String × List String) → List PgOp × Catalog
  | [] => ([], cat)
  | (pgRole, members) :: rest =>
    let r := SyncRoleMembership cat pgRole members prefixes
    let r2 := runPhase2 r.2 prefixes rest
    (r.1 ++ r2.1, r2.2)

/-- The phase-2 loop of main.go:97-107 with its actual error handling: on a
failed sync the Go code calls `log.Fatalf`, which prints and then calls
`os.Exit(1)`, terminating the whole process.  `txFails` abstracts which
role mapping fails; the result is the list of roles whose sync was
attempted before the process exited (the failing one last). -/
def phase2Attempted (txFails : String → Bool) :
    List (String × List String) → List String
  | [] => []
  | (pgRole, _) :: rest =>
    if txFails pgRole then [pgRole]
    else pgRole :: phase2Attempted txFails rest

/-! ### Supporting lemmas for the claims -/

theorem not_contains_iff {α : Type} [BEq α] [LawfulBEq α] (l : List α) (a : α) :
    (!l.contains a) = true ↔ a ∉ l := by
  cases hc : l.contains a
  · simp only [Bool.not_false, true_iff]
    intro hmem
    rw [(contains_true_iff_mem l a).mpr hmem] at hc
    cases hc
  · simp only [Bool.not_true]
    constructor
    · intro h
      cases h
    · intro h
      exact absurd ((contains_true_iff_mem l a).mp hc) h

theorem mem_managedMembers (cat : Catalog) (role : String) (prefixes : List String)
    (u : String) :
    u ∈ managedMembers cat role prefixes ↔
      ((role, u) ∈ cat.members ∧ likeAny prefixes u = true) := by
  unfold managedMembers
  simp only [List.mem_map, List.mem_filter]
  constructor
  · rintro ⟨⟨g, m⟩, ⟨hmem, hcond⟩, rfl⟩
    simp only [Bool.and_eq_true, beq_iff_eq] at hcond
    obtain ⟨hg, hl⟩ := hcond
    subst hg
    exact ⟨hmem, hl⟩
  · rintro ⟨hmem, hl⟩
    exact ⟨(role, u), ⟨hmem, by simp [hl]⟩, rfl⟩

/-! ### Claims -/

/-- C6: for every desired member list D and the actual managed-member set A
computed by the phase-2 query, the plan of `SyncRoleMembership` satisfies
toGrant = D minus A and toRevoke = A minus D as sets, and the two are
disjoint. -/
theorem c6_sync_plan_set_differences (cat : Catalog) (pgRole : String)
    (ldapMembers prefixes : List String) :
    (∀ x, x ∈ (syncPlan cat pgRole ldapMembers prefixes).1 ↔
        (x ∈ ldapMembers ∧ x ∉ managedMembers cat pgRole prefixes)) ∧
    (∀ x, x ∈ (syncPlan cat pgRole ldapMembers prefixes).2 ↔
        (x ∈ managedMembers cat pgRole prefixes ∧ x ∉ ldapMembers)) ∧
    (∀ x, ¬(x ∈ (syncPlan cat pgRole ldapMembers prefixes).1 ∧
        x ∈ (syncPlan cat pgRole ldapMembers prefixes).2)) := by
  refine ⟨?_, ?_, ?_⟩
  · intro x
    unfold syncPlan
    simp only [List.mem_filter]
    exact and_congr_right (fun _ => not_contains_iff _ x)
  · intro x
    unfold syncPlan
    simp only [List.mem_filter]
    exact and_congr_right (fun _ => not_contains_iff _ x)
  · intro x
    unfold syncPlan
    simp only [List.mem_filter]
    rintro ⟨⟨_, hg⟩, ⟨ha, _⟩⟩
    exact (not_contains_iff _ x).mp hg ((mem_managedMembers cat pgRole prefixes x).mpr
      ((mem_managedMembers cat pgRole prefixes x).mp ha))

/-- C1 counterexample: with configured prefix "nc_" — whose underscore is a
LIKE wildcard in the SQL query DeprovisionUsers builds — the deprovisioning
phase drops the account "ncxuser", which does not start with the literal
string prefix "nc_" (and is a member only of the default group). -/
theorem c1_counterexample :
    DeprovisionUsers ⟨["everyone", "ncxuser"], [("everyone", "ncxuser")]⟩ []
        "everyone" ["nc_"] = [PgOp.dropRole "ncxuser"] ∧
      hasPrefixGo "ncxuser" "nc_" = false := ⟨rfl, rfl⟩

/-- C1 (amended): every account the deprovisioning phase attempts to drop is
a member of the target default group whose name matches some configured
prefix under SQL LIKE semantics (the pattern is the prefix followed by the
percent wildcard).  Contrapositively, an account LIKE-matching no
configured prefix is never dropped, regardless of its catalog role
memberships — the literal-string-prefix reading of the claim holds exactly
when no configured prefix contains a LIKE metacharacter. -/
theorem c1_deprovision_only_like_matched (cat : Catalog) (ldapUsers : List String)
    (groupName : String) (prefixes : List String) (u : String)
    (h : PgOp.dropRole u ∈ DeprovisionUsers cat ldapUsers groupName prefixes) :
    likeAny prefixes u = true ∧ (groupName, u) ∈ cat.members := by
  unfold DeprovisionUsers at h
  by_cases hp : prefixes.isEmpty = true
  · rw [if_pos hp] at h
    cases h
  · rw [if_neg hp] at h
    simp only [List.mem_map] at h
    obtain ⟨v, hv, hvu⟩ := h
    injection hvu with hvu
    subst hvu
    have hv2 := List.mem_filter.mp hv
    have hm := (mem_managedMembers cat groupName prefixes v).mp hv2.1
    exact ⟨hm.2, hm.1⟩

theorem c1_witness :
    (PgOp.dropRole "ncxuser" ∈
      DeprovisionUsers ⟨["everyone", "ncxuser"], [("everyone", "ncxuser")]⟩ []
        "everyone" ["nc_"]) ∧
    (likeAny ["nc_"] "ncxuser" = true ∧
      ("everyone", "ncxuser") ∈
        (Catalog.mk ["everyone", "ncxuser"] [("everyone", "ncxuser")]).members) :=
  ⟨by exact List.mem_singleton.mpr rfl,
    c1_deprovision_only_like_matched
      ⟨["everyone", "ncxuser"], [("everyone", "ncxuser")]⟩ [] "everyone" ["nc_"]
      "ncxuser" (by exact List.mem_singleton.mpr rfl)⟩

/-- C2: the phase-2 loop of main.go handles a failed mapping with
log.Fatalf, which exits the process, so when the first mapping of the loop
fails, the attempted list is exactly that one mapping — every remaining
mapping of the pass is never synced, contradicting the claim that mapping
failures are independent. -/
theorem c2_phase2_fatal_stops_loop (txFails : String → Bool) (pgRole : String)
    (members : List String) (rest : List (String × List String))
    (h : txFails pgRole = true) :
    phase2Attempted txFails ((pgRole, members) :: rest) = [pgRole] := by
  simp only [phase2Attempted]
  rw [if_pos h]

theorem c2_witness :
    ((fun r => r == "role1") "role1" = true) ∧
    phase2Attempted (fun r => r == "role1")
      [("role1", ["nc_a"]), ("role2", ["nc_b"])] = ["role1"] :=
  ⟨rfl, c2_phase2_fatal_stops_loop (fun r => r == "role1") "role1" ["nc_a"]
    [("role2", ["nc_b"])] rfl⟩

/-- C10: phase 1 leaves every account that already exists in the catalog
untouched: for a principal already present in pg_roles, EnsureUsersExist
issues no CREATE and no GRANT mentioning that principal — in particular an
existing account lacking the default role does not receive it. -/
theorem c10_ensure_users_frame (cat : Catalog) (users : List String)
    (defaultGroup : String) (u : String) (hu : u ∈ cat.roles) :
    ∀ op ∈ (EnsureUsersExist cat users defaultGroup).1,
      op ≠ PgOp.createRole u ∧ ∀ r, op ≠ PgOp.grant r u := by
  have key : ∀ (users2 : List String) (acc : List PgOp × Catalog),
      u ∈ acc.2.roles →
      (∀ op ∈ acc.1, op ≠ PgOp.createRole u ∧ ∀ r, op ≠ PgOp.grant r u) →
      ∀ op ∈ (users2.foldl (ensureUsersExistStep defaultGroup) acc).1,
        op ≠ PgOp.createRole u ∧ ∀ r, op ≠ PgOp.grant r u := by
    intro users2
    induction users2 with
    | nil => intro acc _ hops; simpa using hops
    | cons v rest ih =>
      intro acc hacc hops
      simp only [List.foldl_cons]
      by_cases hc : acc.2.roles.contains v = true
      · apply ih
        · unfold ensureUsersExistStep
          rw [if_pos hc]
          exact hacc
        · unfold ensureUsersExistStep
          rw [if_pos hc]
          exact hops
      · have hvu : v ≠ u := by
          intro hvu
          subst hvu
          exact (eq_false_ne_true (by
            cases h2 : acc.2.roles.contains v
            · rfl
            · exact absurd h2 hc)) ((contains_true_iff_mem acc.2.roles v).mpr hacc)
        apply ih
        · unfold ensureUsersExistStep
          rw [if_neg hc]
          simp only [List.mem_append]
          exact Or.inl hacc
        · unfold ensureUsersExistStep
          rw [if_neg hc]
          intro op hop
          simp only [List.mem_append, List.mem_cons, List.not_mem_nil,
            or_false] at hop
          rcases hop with hop | rfl | rfl
          · exact hops op hop
          · refine ⟨fun hcreate => ?_, fun r hgrant => ?_⟩
            · injection hcreate with h2
              exact hvu h2
            · cases hgrant
          · refine ⟨fun hcreate => ?_, fun r hgrant => ?_⟩
            · cases hcreate
            · injection hgrant with h2 h3
              exact hvu h3
  exact key users ([], cat) hu (by simp)

theorem c10_witness :
    ("nc_a" ∈ (Catalog.mk ["g", "nc_a"] []).roles) ∧
    (∀ op ∈ (EnsureUsersExist ⟨["g", "nc_a"], []⟩ ["nc_a", "nc_b"] "g").1,
      op ≠ PgOp.createRole "nc_a" ∧ ∀ r, op ≠ PgOp.grant r "nc_a") :=
  ⟨by simp, c10_ensure_users_frame ⟨["g", "nc_a"], []⟩ ["nc_a", "nc_b"] "g" "nc_a"
    (by simp)⟩

theorem gatherStep_error (d : Dir) (oc : String) (prefixes : List String)
    (acc : List String × List (String × List String)) (rm : RoleMap)
    (e : FetchError) (h : FetchGroupMembers d oc rm.LDAPGroupCN = .error e) :
    gatherStep d oc prefixes acc rm = acc := by
  unfold gatherStep
  rw [h]

theorem gatherStep_ok (d : Dir) (oc : String) (prefixes : List String)
    (acc : List String × List (String × List String)) (rm : RoleMap)
    (ms : List String) (h : FetchGroupMembers d oc rm.LDAPGroupCN = .ok ms) :
    gatherStep d oc prefixes acc rm =
      ((filterValidMembers prefixes ms).foldl insertUnique acc.1,
       mapInsert acc.2 rm.PostgresRole (filterValidMembers prefixes ms)) := by
  unfold gatherStep
  rw [h]

theorem filterValidMembers_nil_prefixes (ms : List String) :
    filterValidMembers [] ms = [] := by
  unfold filterValidMembers
  induction ms with
  | nil => rfl
  | cons m rest ih =>
    rw [List.filter_cons_of_neg (by simp)]
    exact ih

theorem gather_valid_nil_prefixes (d : Dir) (oc : String) (roles : List RoleMap) :
    (gatherMappings d oc [] roles).1 = [] := by
  unfold gatherMappings
  have key : ∀ (roles2 : List RoleMap)
      (acc : List String × List (String × List String)), acc.1 = [] →
      (roles2.foldl (gatherStep d oc []) acc).1 = [] := by
    intro roles2
    induction roles2 with
    | nil => intro acc h; simpa using h
    | cons rm rest ih =>
      intro acc h
      simp only [List.foldl_cons]
      apply ih
      cases hf : FetchGroupMembers d oc rm.LDAPGroupCN with
      | error e => rw [gatherStep_error d oc [] acc rm e hf]; exact h
      | ok ms =>
        rw [gatherStep_ok d oc [] acc rm ms hf, filterValidMembers_nil_prefixes]
        exact h
  exact key roles ([], []) rfl

theorem syncRole_nil_prefixes (cat : Catalog) (pgRole : String)
    (ldapMembers : List String) :
    SyncRoleMembership cat pgRole ldapMembers [] = ([], cat) := by
  unfold SyncRoleMembership
  rw [if_pos (show (List.isEmpty ([] : List String)) = true from rfl)]

theorem runPhase2_nil_prefixes :
    ∀ (maps : List (String × List String)) (cat : Catalog),
      (runPhase2 cat [] maps).1 = [] := by
  intro maps
  induction maps with
  | nil => intro cat; rfl
  | cons kv rest ih =>
    intro cat
    rcases kv with ⟨pgRole, members⟩
    simp only [runPhase2]
    rw [syncRole_nil_prefixes]
    simp only [List.nil_append]
    exact ih cat

/-- C7: with an empty allowed-prefix list, no mutating catalog operation is
issued in any phase: the filtered principal set gathered in phase 1 is
empty (so provisioning creates nothing), and phases 2 and 3 return as
no-ops.  The three catalog states are quantified separately because each
phase reads its own transaction snapshot. -/
theorem c7_empty_prefixes_no_mutation (d : Dir) (oc : String)
    (roles : List RoleMap) (cat1 cat2 cat3 : Catalog) (dg : String) :
    (gatherMappings d oc [] roles).1 = [] ∧
    (EnsureUsersExist cat1 (gatherMappings d oc [] roles).1 dg).1 = [] ∧
    (runPhase2 cat2 [] (gatherMappings d oc [] roles).2).1 = [] ∧
    DeprovisionUsers cat3 (gatherMappings d oc [] roles).1 dg [] = [] := by
  refine ⟨gather_valid_nil_prefixes d oc roles, ?_, ?_, rfl⟩
  · rw [gather_valid_nil_prefixes d oc roles]
    rfl
  · exact runPhase2_nil_prefixes _ cat2

theorem find?_map_overwrite (k : String) (v : List String) :
    ∀ (m : List (String × List String)), m.any (fun kv => kv.1 == k) = true →
      (m.map (fun kv => if kv.1 == k then (k, v) else kv)).find?
        (fun kv => kv.1 == k) = some (k, v) := by
  intro m
  induction m with
  | nil => intro h; cases h
  | cons kv rest ih =>
    intro h
    by_cases hkv : (kv.1 == k) = true
    · simp only [List.map_cons]
      rw [if_pos hkv]
      exact List.find?_cons_of_pos _ (by simp)
    · simp only [List.map_cons]
      rw [if_neg hkv]
      rw [@List.find?_cons_of_neg (String × List String) (fun kv2 => kv2.1 == k) kv
        (rest.map (fun kv2 => if kv2.1 == k then (k, v) else kv2)) hkv]
      apply ih
      simp only [List.any_cons, Bool.or_eq_true] at h
      rcases h with h | h
      · exact absurd h hkv
      · exact h

theorem find?_append_single (k : String) (v : List String) :
    ∀ (m : List (String × List String)), m.any (fun kv => kv.1 == k) = false →
      (m ++ [(k, v)]).find? (fun kv => kv.1 == k) = some (k, v) := by
  intro m
  induction m with
  | nil =>
    intro _
    simp only [List.nil_append]
    exact List.find?_cons_of_pos _ (by simp)
  | cons kv rest ih =>
    intro h
    simp only [List.any_cons, Bool.or_eq_false_iff] at h
    simp only [List.cons_append]
    rw [@List.find?_cons_of_neg (String × List String) (fun kv2 => kv2.1 == k) kv
      (rest ++ [(k, v)]) (by show ¬(kv.1 == k) = true; rw [h.1]; simp)]
    exact ih h.2

theorem mapLookup_mapInsert (m : List (String × List String)) (k : String)
    (v : List String) : mapLookup (mapInsert m k v) k = some v := by
  unfold mapInsert mapLookup
  by_cases hk : m.any (fun kv => kv.1 == k) = true
  · rw [if_pos hk, find?_map_overwrite k v m hk]
    rfl
  · rw [if_neg hk]
    have h2 : m.any (fun kv => kv.1 == k) = false := by
      cases h3 : m.any (fun kv => kv.1 == k)
      · rfl
      · exact absurd h3 hk
    rw [find?_append_single k v m h2]
    rfl

/-- C9: when several role mappings target the same Postgres role, the
phase-2 desired membership recorded for that role is the filtered resolved
member set of the mapping appearing last in the configuration: the Go map
assignment `allRoleMappings[role] = filteredMembers` overwrites any entry
an earlier mapping stored. -/
theorem c9_last_mapping_wins (d : Dir) (oc : String) (prefixes : List String)
    (roles : List RoleMap) (rm : RoleMap) (ms : List String)
    (h : FetchGroupMembers d oc rm.LDAPGroupCN = .ok ms) :
    mapLookup (gatherMappings d oc prefixes (roles ++ [rm])).2 rm.PostgresRole
      = some (filterValidMembers prefixes ms) := by
  unfold gatherMappings
  rw [List.foldl_append]
  simp only [List.foldl_cons, List.foldl_nil]
  rw [gatherStep_ok d oc prefixes _ rm ms h]
  exact mapLookup_mapInsert _ _ _

/-- Concrete directory for witnesses: flat groups g1 (member u1) and
g2 (member u2), with user-id attributes nc_u1, nc_u2. -/
def exDirTwoGroups : Dir :=
  ⟨[⟨"cn=g1", "g1", ["groupOfNames"], ["cn=u1"], ""⟩,
    ⟨"cn=g2", "g2", ["groupOfNames"], ["cn=u2"], ""⟩,
    ⟨"cn=u1", "u1", ["person"], [], "nc_u1"⟩,
    ⟨"cn=u2", "u2", ["person"], [], "nc_u2"⟩], [], false⟩

theorem c9_witness :
    FetchGroupMembers exDirTwoGroups "groupOfNames" "g2" = .ok ["nc_u2"] ∧
    mapLookup (gatherMappings exDirTwoGroups "groupOfNames" ["nc_"]
        ([⟨"r", "g1"⟩] ++ [⟨"r", "g2"⟩])).2 "r" = some ["nc_u2"] :=
  ⟨rfl, c9_last_mapping_wins exDirTwoGroups "groupOfNames" ["nc_"] [⟨"r", "g1"⟩]
    ⟨"r", "g2"⟩ ["nc_u2"] rfl⟩

/-- C3 counterexample: a pass whose single mapping r1 <- gmissing fails to
resolve (NotFound).  The engine records no entry at all for r1 — the role
map stays empty — so phase 2 issues no operation for r1 and the existing
managed member nc_old keeps the role.  The claim instead says the mapping
contributes an empty desired set against which phase 2 runs; the last
conjunct shows that such a run would have revoked nc_old. -/
theorem c3_counterexample :
    FetchGroupMembers exDirTwoGroups "groupOfNames" "gmissing"
        = .error .notFound ∧
    (gatherMappings exDirTwoGroups "groupOfNames" ["nc_"]
        [⟨"r1", "gmissing"⟩]).2 = [] ∧
    (runPhase2 ⟨["r1", "nc_old"], [("r1", "nc_old")]⟩ ["nc_"]
        (gatherMappings exDirTwoGroups "groupOfNames" ["nc_"]
          [⟨"r1", "gmissing"⟩]).2).1 = [] ∧
    (SyncRoleMembership ⟨["r1", "nc_old"], [("r1", "nc_old")]⟩ "r1" [] ["nc_"]).1
        = [PgOp.revoke "r1" "nc_old"] :=
  ⟨rfl, rfl, rfl, rfl⟩

theorem syncRole_ops_shape (cat : Catalog) (pgRole : String)
    (ldapMembers prefixes : List String) (op : PgOp)
    (h : op ∈ (SyncRoleMembership cat pgRole ldapMembers prefixes).1) :
    (∃ u, op = PgOp.grant pgRole u) ∨ (∃ u, op = PgOp.revoke pgRole u) := by
  unfold SyncRoleMembership at h
  by_cases hp : prefixes.isEmpty = true
  · rw [if_pos hp] at h
    cases h
  · rw [if_neg hp] at h
    simp only [List.mem_append, List.mem_map] at h
    rcases h with ⟨u, _, rfl⟩ | ⟨u, _, rfl⟩
    · exact Or.inl ⟨u, rfl⟩
    · exact Or.inr ⟨u, rfl⟩

theorem runPhase2_ops_from_keys (prefixes : List String) :
    ∀ (maps : List (String × List String)) (cat : Catalog) (op : PgOp),
      op ∈ (runPhase2 cat prefixes maps).1 →
      ∃ kv ∈ maps, (∃ u, op = PgOp.grant kv.1 u) ∨ (∃ u, op = PgOp.revoke kv.1 u) := by
  intro maps
  induction maps with
  | nil => intro cat op h; cases h
  | cons kv rest ih =>
    intro cat op h
    rcases kv with ⟨pgRole, members⟩
    simp only [runPhase2, List.mem_append] at h
    rcases h with h | h
    · exact ⟨(pgRole, members), List.mem_cons_self _ _,
        syncRole_ops_shape cat pgRole members prefixes op h⟩
    · obtain ⟨kv2, hkv2, hop⟩ := ih _ op h
      exact ⟨kv2, List.mem_cons_of_mem _ hkv2, hop⟩

theorem mapInsert_keys_any_false (m : List (String × List String))
    (k R : String) (v : List String) (hm : m.any (fun kv => kv.1 == R) = false)
    (hk : (k == R) = false) :
    (mapInsert m k v).any (fun kv => kv.1 == R) = false := by
  unfold mapInsert
  by_cases ha : m.any (fun kv => kv.1 == k) = true
  · rw [if_pos ha]
    rw [List.any_map]
    rw [List.any_eq_false] at hm ⊢
    intro kv hkv
    by_cases hh : (kv.1 == k) = true
    · show ¬((if (kv.1 == k) = true then (k, v) else kv).1 == R) = true
      rw [if_pos hh]
      rw [hk]
      simp
    · show ¬((if (kv.1 == k) = true then (k, v) else kv).1 == R) = true
      rw [if_neg hh]
      exact hm kv hkv
  · rw [if_neg ha]
    rw [List.any_append]
    rw [hm]
    simp only [List.any_cons, List.any_nil, hk]
    rfl

theorem gather_no_entry_for_failed_role (d : Dir) (oc : String)
    (prefixes : List String) (R : String) :
    ∀ (roles : List RoleMap)
      (acc : List String × List (String × List String)),
      (∀ rm ∈ roles, rm.PostgresRole = R →
        ∃ e, FetchGroupMembers d oc rm.LDAPGroupCN = .error e) →
      acc.2.any (fun kv => kv.1 == R) = false →
      (roles.foldl (gatherStep d oc prefixes) acc).2.any
        (fun kv => kv.1 == R) = false := by
  intro roles
  induction roles with
  | nil => intro acc _ hacc; simpa using hacc
  | cons rm rest ih =>
    intro acc hfail hacc
    simp only [List.foldl_cons]
    apply ih
    · intro rm2 h2
      exact hfail rm2 (List.mem_cons_of_mem _ h2)
    · cases hf : FetchGroupMembers d oc rm.LDAPGroupCN with
      | error e =>
        rw [gatherStep_error d oc prefixes acc rm e hf]
        exact hacc
      | ok ms =>
        rw [gatherStep_ok d oc prefixes acc rm ms hf]
        apply mapInsert_keys_any_false _ _ _ _ hacc
        have hne : rm.PostgresRole ≠ R := by
          intro hr
          obtain ⟨e, he⟩ := hfail rm (List.mem_cons_self _ _) hr
          rw [hf] at he
          cases he
        cases hbeq : rm.PostgresRole == R
        · rfl
        · exact absurd (by simpa using hbeq) hne

/-- C3 (amended): a role mapping whose group resolution fails is dropped
from the pass entirely, not treated as an empty membership set: the engine
records no entry for it, so — when no other mapping targets the same role
— phase 2 runs no sync for that role and issues no grant or revoke on it
(existing managed members of the role are left untouched).  The pass
itself continues for the database. -/
theorem c3_failed_mapping_contributes_nothing (d : Dir) (oc : String)
    (prefixes : List String) (roles : List RoleMap) (R : String) (cat : Catalog)
    (hfail : ∀ rm ∈ roles, rm.PostgresRole = R →
      ∃ e, FetchGroupMembers d oc rm.LDAPGroupCN = .error e) :
    mapLookup (gatherMappings d oc prefixes roles).2 R = none ∧
    (∀ op ∈ (runPhase2 cat prefixes (gatherMappings d oc prefixes roles).2).1,
      ∀ u, op ≠ PgOp.grant R u ∧ op ≠ PgOp.revoke R u) := by
  have hany : (gatherMappings d oc prefixes roles).2.any
      (fun kv => kv.1 == R) = false :=
    gather_no_entry_for_failed_role d oc prefixes R roles ([], []) hfail rfl
  constructor
  · unfold mapLookup
    rw [List.find?_eq_none.mpr ?_]
    · rfl
    · intro kv hkv hbeq
      rw [List.any_eq_false] at hany
      exact hany kv hkv hbeq
  · intro op hop u
    obtain ⟨kv, hkv, hshape⟩ := runPhase2_ops_from_keys prefixes _ cat op hop
    have hkR : kv.1 ≠ R := by
      intro hr
      rw [List.any_eq_false] at hany
      exact hany kv hkv (by simp [hr])
    rcases hshape with ⟨u2, rfl⟩ | ⟨u2, rfl⟩
    · refine ⟨fun hgr => ?_, fun hgr => ?_⟩
      · injection hgr with h1 h2
        exact hkR h1
      · cases hgr
    · refine ⟨fun hgr => ?_, fun hgr => ?_⟩
      · cases hgr
      · injection hgr with h1 h2
        exact hkR h1

theorem c3_witness :
    ((gatherMappings exDirTwoGroups "groupOfNames" ["nc_"]
        [⟨"r1", "gmissing"⟩]).2 = []) ∧
    mapLookup (gatherMappings exDirTwoGroups "groupOfNames" ["nc_"]
      [⟨"r1", "gmissing"⟩]).2 "r1" = none ∧
    (∀ op ∈ (runPhase2 ⟨["r1", "nc_old"], [("r1", "nc_old")]⟩ ["nc_"]
        (gatherMappings exDirTwoGroups "groupOfNames" ["nc_"]
          [⟨"r1", "gmissing"⟩]).2).1,
      ∀ u, op ≠ PgOp.grant "r1" u ∧ op ≠ PgOp.revoke "r1" u) := by
  refine ⟨rfl, ?_, ?_⟩
  · exact (c3_failed_mapping_contributes_nothing exDirTwoGroups "groupOfNames"
      ["nc_"] [⟨"r1", "gmissing"⟩] "r1" ⟨["r1", "nc_old"], [("r1", "nc_old")]⟩
      (by intro rm hrm _; exact ⟨.notFound, by
        rcases List.mem_singleton.mp hrm with rfl; rfl⟩)).1
  · exact (c3_failed_mapping_contributes_nothing exDirTwoGroups "groupOfNames"
      ["nc_"] [⟨"r1", "gmissing"⟩] "r1" ⟨["r1", "nc_old"], [("r1", "nc_old")]⟩
      (by intro rm hrm _; exact ⟨.notFound, by
        rcases List.mem_singleton.mp hrm with rfl; rfl⟩)).2

theorem findGroupDN_base_fails (d : Dir) (oc cn : String)
    (h : d.baseSearchFails = true) :
    findGroupDN d oc cn = .error .directoryError := by
  unfold findGroupDN
  rw [if_pos h]

theorem findGroupDN_none (d : Dir) (oc cn : String)
    (hb : d.baseSearchFails = false)
    (hf : d.entries.filter
      (fun e => e.objectClasses.contains oc && e.cn == cn) = []) :
    findGroupDN d oc cn = .error .notFound := by
  unfold findGroupDN
  rw [if_neg (eq_false_ne_true hb), hf]

theorem findGroupDN_single (d : Dir) (oc cn : String) (e1 : Entry)
    (hb : d.baseSearchFails = false)
    (hf : d.entries.filter
      (fun e => e.objectClasses.contains oc && e.cn == cn) = [e1]) :
    findGroupDN d oc cn = .ok e1.dn := by
  unfold findGroupDN
  rw [if_neg (eq_false_ne_true hb), hf]

theorem findGroupDN_many (d : Dir) (oc cn : String) (e1 e2 : Entry)
    (rest : List Entry) (hb : d.baseSearchFails = false)
    (hf : d.entries.filter
      (fun e => e.objectClasses.contains oc && e.cn == cn) = e1 :: e2 :: rest) :
    findGroupDN d oc cn = .error .ambiguousMatch := by
  unfold findGroupDN
  rw [if_neg (eq_false_ne_true hb), hf]

theorem fetchFuel_as_succ (d : Dir) :
    fetchFuel d = (d.entries.length + 1) + 1 := rfl

/-- Concrete directory for the C4 counterexample: the group g has one member
whose base-object lookup fails. -/
def exDirMemberFail : Dir :=
  ⟨[⟨"cn=g", "g", ["groupOfNames"], ["cn=ufail"], ""⟩], ["cn=ufail"], false⟩

/-- C4 counterexample: the lookup of an individual member entry fails with a
directory error, yet Resolve succeeds (with the member silently skipped)
instead of failing with a directory error as the claim requires for every
lookup during expansion. -/
theorem c4_counterexample :
    getObject exDirMemberFail "cn=ufail" = .searchError ∧
    FetchGroupMembers exDirMemberFail "groupOfNames" "g" = .ok [] :=
  ⟨rfl, rfl⟩

/-- C4 (amended): Resolve(groupName) fails with NotFound when no group entry
matches the name, with AmbiguousMatch when more than one matches, and with
a directory error when the subtree search itself fails or when the lookup
of the resolved top-level group entry fails or finds nothing; a lookup
failure on a member entry or nested subgroup is logged and skipped and
never fails resolution — when the top-level group entry is retrievable,
resolution succeeds. -/
theorem c4_resolve_error_contract (d : Dir) (oc cn : String) :
    (d.baseSearchFails = true →
      FetchGroupMembers d oc cn = .error .directoryError) ∧
    (d.baseSearchFails = false →
      d.entries.filter (fun e => e.objectClasses.contains oc && e.cn == cn) = [] →
      FetchGroupMembers d oc cn = .error .notFound) ∧
    (∀ e1 e2 rest, d.baseSearchFails = false →
      d.entries.filter (fun e => e.objectClasses.contains oc && e.cn == cn)
        = e1 :: e2 :: rest →
      FetchGroupMembers d oc cn = .error .ambiguousMatch) ∧
    (∀ e1, d.baseSearchFails = false →
      d.entries.filter (fun e => e.objectClasses.contains oc && e.cn == cn) = [e1] →
      (getObject d e1.dn = .searchError ∨ getObject d e1.dn = .missing) →
      FetchGroupMembers d oc cn = .error .directoryError) ∧
    (∀ e1 me, d.baseSearchFails = false →
      d.entries.filter (fun e => e.objectClasses.contains oc && e.cn == cn) = [e1] →
      getObject d e1.dn = .found me →
      ∃ l, FetchGroupMembers d oc cn = .ok l) := by
  refine ⟨?_, ?_, ?_, ?_, ?_⟩
  · intro hb
    exact FetchGroupMembers_eq_error_find d oc cn _ (findGroupDN_base_fails d oc cn hb)
  · intro hb hf
    exact FetchGroupMembers_eq_error_find d oc cn _ (findGroupDN_none d oc cn hb hf)
  · intro e1 e2 rest hb hf
    exact FetchGroupMembers_eq_error_find d oc cn _
      (findGroupDN_many d oc cn e1 e2 rest hb hf)
  · intro e1 hb hf hfail
    have hcontains : (([] : List String).contains e1.dn) = false := rfl
    rcases hfail with hfail | hfail
    · exact FetchGroupMembers_eq_error_rec d oc cn e1.dn [] [e1.dn]
        (findGroupDN_single d oc cn e1 hb hf)
        (by rw [fetchFuel_as_succ]
            exact fetchRec_succ_searchError d (d.entries.length + 1) e1.dn
              ([], []) hcontains hfail)
    · exact FetchGroupMembers_eq_error_rec d oc cn e1.dn [] [e1.dn]
        (findGroupDN_single d oc cn e1 hb hf)
        (by rw [fetchFuel_as_succ]
            exact fetchRec_succ_missing d (d.entries.length + 1) e1.dn
              ([], []) hcontains hfail)
  · intro e1 me hb hf hfound
    refine ⟨(processMembers d (fetchMembersRecursive d (d.entries.length + 1))
      me.memberDNs ([], [e1.dn])).1, ?_⟩
    refine FetchGroupMembers_eq_ok d oc cn e1.dn
      (processMembers d (fetchMembersRecursive d (d.entries.length + 1))
        me.memberDNs ([], [e1.dn])).1
      (processMembers d (fetchMembersRecursive d (d.entries.length + 1))
        me.memberDNs ([], [e1.dn])).2
      (findGroupDN_single d oc cn e1 hb hf) ?_
    rw [fetchFuel_as_succ]
    rw [fetchRec_succ_found d (d.entries.length + 1) e1.dn ([], []) me rfl hfound]

theorem c4_witness :
    (getObject exDirMemberFail "cn=ufail" = .searchError) ∧
    (exDirMemberFail.baseSearchFails = false ∧
      FetchGroupMembers exDirMemberFail "groupOfNames" "missing"
        = .error .notFound) ∧
    (∃ l, FetchGroupMembers exDirMemberFail "groupOfNames" "g" = .ok l) := by
  refine ⟨rfl, ⟨rfl, ?_⟩, ?_⟩
  · exact (c4_resolve_error_contract exDirMemberFail "groupOfNames" "missing").2.1
      rfl rfl
  · exact (c4_resolve_error_contract exDirMemberFail "groupOfNames" "g").2.2.2.2
      ⟨"cn=g", "g", ["groupOfNames"], ["cn=ufail"], ""⟩
      ⟨"cn=g", "g", ["groupOfNames"], ["cn=ufail"], ""⟩ rfl rfl rfl

theorem mem_grantEdge (cat : Catalog) (role user : String) (e : String × String) :
    e ∈ (grantEdge cat role user).members ↔
      (e ∈ cat.members ∨ e = (role, user)) := by
  unfold grantEdge
  by_cases hc : cat.members.contains (role, user) = true
  · rw [if_pos hc]
    constructor
    · exact Or.inl
    · rintro (h | rfl)
      · exact h
      · exact (contains_true_iff_mem _ _).mp hc
  · rw [if_neg hc]
    simp only [List.mem_append, List.mem_cons, List.not_mem_nil, or_false]

theorem mem_grantFold (role : String) :
    ∀ (g : List String) (cat : Catalog) (e : String × String),
      e ∈ (g.foldl (fun c u => grantEdge c role u) cat).members ↔
        (e ∈ cat.members ∨ (e.1 = role ∧ e.2 ∈ g)) := by
  intro g
  induction g with
  | nil => intro cat e; simp
  | cons u g2 ih =>
    intro cat e
    simp only [List.foldl_cons]
    rw [ih (grantEdge cat role u) e, mem_grantEdge]
    constructor
    · rintro ((h | rfl) | ⟨h1, h2⟩)
      · exact Or.inl h
      · exact Or.inr ⟨rfl, List.mem_cons_self _ _⟩
      · exact Or.inr ⟨h1, List.mem_cons_of_mem _ h2⟩
    · rintro (h | ⟨h1, h2⟩)
      · exact Or.inl (Or.inl h)
      · rcases List.mem_cons.mp h2 with h22 | h22
        · exact Or.inl (Or.inr (Prod.ext_iff.mpr ⟨h1, h22⟩))
        · exact Or.inr ⟨h1, h22⟩

theorem mem_revokeEdge (cat : Catalog) (role user : String) (e : String × String) :
    e ∈ (revokeEdge cat role user).members ↔
      (e ∈ cat.members ∧ ¬(e.1 = role ∧ e.2 = user)) := by
  unfold revokeEdge
  simp only [List.mem_filter]
  constructor
  · rintro ⟨h1, h2⟩
    refine ⟨h1, ?_⟩
    rintro ⟨hr, hu⟩
    rw [hr, hu] at h2
    simp at h2
  · rintro ⟨h1, h2⟩
    refine ⟨h1, ?_⟩
    by_cases hr : e.1 = role
    · by_cases hu : e.2 = user
      · exact absurd ⟨hr, hu⟩ h2
      · simp [hr, hu]
    · simp [hr]

theorem mem_revokeFold (role : String) :
    ∀ (r : List String) (cat : Catalog) (e : String × String),
      e ∈ (r.foldl (fun c u => revokeEdge c role u) cat).members ↔
        (e ∈ cat.members ∧ ¬(e.1 = role ∧ e.2 ∈ r)) := by
  intro r
  induction r with
  | nil => intro cat e; simp
  | cons u r2 ih =>
    intro cat e
    simp only [List.foldl_cons]
    rw [ih (revokeEdge cat role u) e, mem_revokeEdge]
    constructor
    · rintro ⟨⟨h1, h2⟩, h3⟩
      refine ⟨h1, ?_⟩
      rintro ⟨hr, hm⟩
      rcases List.mem_cons.mp hm with hm | hm
      · exact h2 ⟨hr, hm⟩
      · exact h3 ⟨hr, hm⟩
    · rintro ⟨h1, h2⟩
      refine ⟨⟨h1, fun h3 => h2 ⟨h3.1, List.mem_cons.mpr (Or.inl h3.2)⟩⟩,
        fun h3 => h2 ⟨h3.1, List.mem_cons_of_mem _ h3.2⟩⟩

theorem SyncRoleMembership_snd (cat : Catalog) (pgRole : String)
    (ldapMembers prefixes : List String) (hne : prefixes.isEmpty = false) :
    (SyncRoleMembership cat pgRole ldapMembers prefixes).2 =
      (syncPlan cat pgRole ldapMembers prefixes).2.foldl
        (fun c u => revokeEdge c pgRole u)
        ((syncPlan cat pgRole ldapMembers prefixes).1.foldl
          (fun c u => grantEdge c pgRole u) cat) := by
  unfold SyncRoleMembership
  rw [if_neg (eq_false_ne_true hne)]

/-- Literal-prefix inclusion implies LIKE-pattern inclusion, provided the
prefix contains no backslash (the LIKE escape character). -/
theorem likeAny_of_literal (prefixes : List String) (u p : String)
    (hp : p ∈ prefixes) (hnb : ('\\' : Char) ∉ p.data)
    (hpre : hasPrefixGo u p = true) : likeAny prefixes u = true := by
  unfold likeAny
  rw [List.any_eq_true]
  refine ⟨p, hp, ?_⟩
  unfold hasPrefixGo at hpre
  have hpfx : p.data <+: u.data := List.isPrefixOf_iff_prefix.mp hpre
  obtain ⟨t, ht⟩ := hpfx
  rw [← ht]
  exact likeMatchL_of_literal_charlist p.data t hnb

/-- C8 counterexample: the claim fails when a configured prefix contains a
backslash, the SQL LIKE escape character.  With prefix consisting of the
two characters a and backslash, the desired member (a, backslash, x)
passes the literal prefix filter of phase 1; the first run grants it and
completes, but the LIKE pattern (a, backslash, percent) denotes only the
literal two-character string a-percent, so the second run's managed query
misses the member and the second plan grants it again — not empty. -/
theorem c8_counterexample :
    filterValidMembers ["a\\"] ["a\\x"] = ["a\\x"] ∧
    (SyncRoleMembership ⟨["r", "a\\x"], []⟩ "r" ["a\\x"] ["a\\"]).1
      = [PgOp.grant "r" "a\\x"] ∧
    syncPlan (SyncRoleMembership ⟨["r", "a\\x"], []⟩ "r" ["a\\x"] ["a\\"]).2 "r"
      ["a\\x"] ["a\\"] = (["a\\x"], []) :=
  ⟨rfl, rfl, rfl⟩

/-- C8 (amended): phase 2 is idempotent provided no configured prefix
contains a backslash: if every desired member has some configured prefix
as a literal prefix (as phase 1 guarantees for directory-derived sets) and
SyncRoleMembership completes successfully, then recomputing the plan
against the resulting catalog yields empty toGrant and toRevoke, so a
second run issues no grant and no revoke. -/
theorem c8_sync_idempotent (cat : Catalog) (pgRole : String)
    (ldapMembers prefixes : List String) (hne : prefixes ≠ [])
    (hesc : ∀ p ∈ prefixes, ('\\' : Char) ∉ p.data)
    (hvalid : ∀ u ∈ ldapMembers, ∃ p ∈ prefixes, hasPrefixGo u p = true) :
    syncPlan (SyncRoleMembership cat pgRole ldapMembers prefixes).2 pgRole
      ldapMembers prefixes = ([], []) := by
  have hne2 : prefixes.isEmpty = false := by
    cases prefixes
    · exact absurd rfl hne
    · rfl
  have hcat2eq := SyncRoleMembership_snd cat pgRole ldapMembers prefixes hne2
  have hmem2 : ∀ e : String × String,
      e ∈ (SyncRoleMembership cat pgRole ldapMembers prefixes).2.members ↔
      ((e ∈ cat.members ∨
          (e.1 = pgRole ∧ e.2 ∈ (syncPlan cat pgRole ldapMembers prefixes).1)) ∧
        ¬(e.1 = pgRole ∧ e.2 ∈ (syncPlan cat pgRole ldapMembers prefixes).2)) := by
    intro e
    rw [hcat2eq, mem_revokeFold, mem_grantFold]
  have hDsub : ∀ u ∈ ldapMembers,
      u ∈ managedMembers (SyncRoleMembership cat pgRole ldapMembers prefixes).2
        pgRole prefixes := by
    intro u hu
    rw [mem_managedMembers]
    obtain ⟨p, hp, hpre⟩ := hvalid u hu
    refine ⟨?_, likeAny_of_literal prefixes u p hp (hesc p hp) hpre⟩
    rw [hmem2]
    constructor
    · by_cases hA : u ∈ managedMembers cat pgRole prefixes
      · exact Or.inl ((mem_managedMembers cat pgRole prefixes u).mp hA).1
      · refine Or.inr ⟨rfl, ?_⟩
        show u ∈ ldapMembers.filter
          (fun v => !(managedMembers cat pgRole prefixes).contains v)
        exact List.mem_filter.mpr ⟨hu, (not_contains_iff _ u).mpr hA⟩
    · rintro ⟨_, hrev⟩
      have h4 := List.mem_filter.mp (show u ∈ (managedMembers cat pgRole
        prefixes).filter (fun v => !ldapMembers.contains v) from hrev)
      exact (not_contains_iff ldapMembers u).mp h4.2 hu
  have hA2sub : ∀ u ∈ managedMembers
      (SyncRoleMembership cat pgRole ldapMembers prefixes).2 pgRole prefixes,
      u ∈ ldapMembers := by
    intro u hu2
    have h2 := (mem_managedMembers _ pgRole prefixes u).mp hu2
    have hl := h2.2
    have hm := (hmem2 (pgRole, u)).mp h2.1
    rcases hm with ⟨hg | ⟨_, hg⟩, hnr⟩
    · have hA : u ∈ managedMembers cat pgRole prefixes :=
        (mem_managedMembers cat pgRole prefixes u).mpr ⟨hg, hl⟩
      by_cases hD : u ∈ ldapMembers
      · exact hD
      · exfalso
        apply hnr
        refine ⟨rfl, ?_⟩
        show u ∈ (managedMembers cat pgRole prefixes).filter
          (fun v => !ldapMembers.contains v)
        exact List.mem_filter.mpr ⟨hA, (not_contains_iff _ u).mpr hD⟩
    · have h5 := List.mem_filter.mp (show u ∈ ldapMembers.filter
        (fun v => !(managedMembers cat pgRole prefixes).contains v) from hg)
      exact h5.1
  have hgrantnil : ldapMembers.filter (fun u =>
      !(managedMembers (SyncRoleMembership cat pgRole ldapMembers prefixes).2
        pgRole prefixes).contains u) = [] :=
    List.filter_eq_nil_iff.mpr
      (fun u hu hpred => (not_contains_iff _ u).mp hpred (hDsub u hu))
  have hrevnil : (managedMembers
      (SyncRoleMembership cat pgRole ldapMembers prefixes).2 pgRole
        prefixes).filter (fun u => !ldapMembers.contains u) = [] :=
    List.filter_eq_nil_iff.mpr
      (fun u hu hpred => (not_contains_iff _ u).mp hpred (hA2sub u hu))
  show (ldapMembers.filter (fun u =>
      !(managedMembers (SyncRoleMembership cat pgRole ldapMembers prefixes).2
        pgRole prefixes).contains u),
    (managedMembers (SyncRoleMembership cat pgRole ldapMembers prefixes).2
      pgRole prefixes).filter (fun u => !ldapMembers.contains u)) = ([], [])
  rw [hgrantnil, hrevnil]

theorem c8_witness :
    syncPlan (SyncRoleMembership ⟨["r", "nc_u1"], []⟩ "r" ["nc_u1"] ["nc_"]).2
      "r" ["nc_u1"] ["nc_"] = ([], []) :=
  c8_sync_idempotent ⟨["r", "nc_u1"], []⟩ "r" ["nc_u1"] ["nc_"] (by decide)
    (by decide) (by decide)

/-- C5: for every directory — hence every finite group-reference graph,
including self-referential (cyclic) and diamond-shaped ones — the
recursive expansion performed by FetchGroupMembers terminates: any fuel of
at least `fetchFuel d` yields the same value, so the unbounded Go
recursion has that well-defined value; an already-processed group
reference returns immediately without being expanded again and the
processed set stays duplicate-free, so each distinct reference is visited
at most once; and a successful expansion returns a duplicate-free list:
each discovered leaf principal appears exactly once. -/
theorem c5_expansion_terminates_unique (d : Dir) :
    (∀ fuel dn st, fetchFuel d ≤ fuel →
      fetchMembersRecursive d fuel dn st =
        fetchMembersRecursive d (fetchFuel d) dn st) ∧
    (∀ fuel dn st, st.2.contains dn = true →
      fetchMembersRecursive d (fuel + 1) dn st = (st, false)) ∧
    (∀ fuel dn st, st.1.Nodup → st.2.Nodup →
      ((fetchMembersRecursive d fuel dn st).1.1.Nodup ∧
        (fetchMembersRecursive d fuel dn st).1.2.Nodup)) ∧
    (∀ oc cn l, FetchGroupMembers d oc cn = .ok l → l.Nodup) :=
  ⟨fun fuel dn st h => fetchRec_fuel_adequate d fuel dn st h,
    fun fuel dn st h => fetchRec_skip_visited d fuel dn st h,
    fun fuel dn st h1 h2 => fetchRec_nodup d fuel dn st h1 h2,
    fun oc cn l h => FetchGroupMembers_ok_nodup d oc cn l h⟩

/-- A diamond-shaped, cyclic reference graph: g0 -> g1, g2; g1 -> g3, u1;
g2 -> g3, u2; g3 -> g0 (closing the cycle), u3. -/
def exDirDiamond : Dir :=
  ⟨[⟨"cn=g0", "g0", ["groupOfNames"], ["cn=g1", "cn=g2"], ""⟩,
    ⟨"cn=g1", "g1", ["groupOfNames"], ["cn=g3", "cn=u1"], ""⟩,
    ⟨"cn=g2", "g2", ["groupOfNames"], ["cn=g3", "cn=u2"], ""⟩,
    ⟨"cn=g3", "g3", ["groupOfNames"], ["cn=g0", "cn=u3"], ""⟩,
    ⟨"cn=u1", "u1", ["person"], [], "nc_u1"⟩,
    ⟨"cn=u2", "u2", ["person"], [], "nc_u2"⟩,
    ⟨"cn=u3", "u3", ["person"], [], "nc_u3"⟩], [], false⟩


example : FetchGroupMembers exDirDiamond "groupOfNames" "g0"
    = .ok ["nc_u2", "nc_u1", "nc_u3"] := rfl

example : fetchMembersRecursive exDirDiamond 20 "cn=g0" ([], [])
    = ((["nc_u2", "nc_u1", "nc_u3"], ["cn=g2", "cn=g3", "cn=g1", "cn=g0"]), false) := rfl

example : fetchMembersRecursive exDirDiamond (fetchFuel exDirDiamond) "cn=g0" ([], [])
    = ((["nc_u2", "nc_u1", "nc_u3"], ["cn=g2", "cn=g3", "cn=g1", "cn=g0"]), false) := rfl

end PgLdapSync
